import Mathlib

/-!
# Verification of the cg3-stream-parser core (`src/lib.rs`)

A shallow embedding of the Rust source.  Text is modelled as `List Char`
(one Unicode scalar value per element, as in Rust's `str::chars`).

The source uses two `regex::Regex` patterns:

* `RE_WORD_FORM = ^"<(.*?)>"(?:\s(.*)?)?$`
* `RE_BASE_FORM = ^\s+"(.*?)"(?:\s(.*)?)?$`

The `regex` crate uses leftmost-first (Perl-like) match priority, `\s`
denotes the Unicode `White_Space` class, `.` matches every character
except `\n`, and (absent the multi-line flag) `^`/`$` anchor at the ends
of the haystack.  The lazy group `(.*?)` therefore captures the shortest
text such that the *remainder* of the pattern matches the rest of the
line.  These semantics are embedded below as executable search functions
(`wfSearch`, `bfSearch`) that try, at each position, to close the quoted
field there (succeeding only when the tail pattern `(?:\s(.*)?)?$`
matches what follows) before extending the capture by one character.
-/

/-- Rust regex `\s`: the Unicode `White_Space` character class. -/
def rsWhitespace (c : Char) : Bool :=
  c == ' ' || c == '\t' || c == '\n' || c == '\r' ||
  c.val == 0x0B || c.val == 0x0C || c.val == 0x85 || c.val == 0xA0 ||
  c.val == 0x1680 || (0x2000 ≤ c.val && c.val ≤ 0x200A) ||
  c.val == 0x2028 || c.val == 0x2029 || c.val == 0x202F || c.val == 0x205F ||
  c.val == 0x3000

/-- Matching of the common tail pattern `(?:\s(.*)?)?$` against the rest of
the line.  Returns `none` when the tail does not match; otherwise returns
the contents of capture group 2 (`none` for a non-participating group, as
when the line ends right after the closing quote).  A single whitespace
character is consumed before the group; the greedy `(.*)` then takes the
whole remainder, which must not contain `\n`. -/
def tailCaptures : List Char → Option (Option (List Char))
  | [] => some none
  | c :: r => if rsWhitespace c && r.all (fun a => a != '\n') then some (some r) else none

/-- Attempt to close the word-form capture at the current position: the
pattern continues `>"` followed by the tail.  `wfClose` is called with the
characters after a `>` already seen. -/
def wfClose : List Char → Option (Option (List Char))
  | c :: rest => if c = '"' then tailCaptures rest else none
  | [] => none

/-- Lazy search for group 1 of `RE_WORD_FORM` in the text after `"<`:
at each position first try to match `>"` plus the tail pattern here
(shortest-match priority), else extend the capture by one character
(which, being matched by `.`, must not be `\n`). -/
def wfSearch : List Char → Option (List Char × Option (List Char))
  | [] => none
  | c :: r =>
    match (if c = '>' then wfClose r else none) with
    | some g2 => some ([], g2)
    | none => if c = '\n' then none else (wfSearch r).map (fun p => (c :: p.1, p.2))

/-- `RE_WORD_FORM.captures(line)`: the line must start with `"<`; returns
(group 1, group 2). -/
def reWordForm : List Char → Option (List Char × Option (List Char))
  | c1 :: c2 :: m => if c1 = '"' ∧ c2 = '<' then wfSearch m else none
  | _ => none

/-- Lazy search for group 1 of `RE_BASE_FORM` after the opening `"`:
at each position first try to close with `"` plus the tail pattern. -/
def bfSearch : List Char → Option (List Char × Option (List Char))
  | [] => none
  | c :: r =>
    match (if c = '"' then tailCaptures r else none) with
    | some g2 => some ([], g2)
    | none => if c = '\n' then none else (bfSearch r).map (fun p => (c :: p.1, p.2))

/-- `RE_BASE_FORM.captures(line)`: one or more leading whitespace
characters (the greedy `\s+` takes the maximal run; backtracking into the
run cannot help since a shorter run leaves a whitespace character where
`"` is required), then the quoted base form. -/
def reBaseForm (line : List Char) : Option (List Char × Option (List Char)) :=
  match line with
  | [] => none
  | c :: r =>
    if rsWhitespace c then
      match (c :: r).dropWhile rsWhitespace with
      | d :: m => if d = '"' then bfSearch m else none
      | [] => none
    else none

/-- One candidate morphological analysis (`struct Reading` in the source;
the borrowed `&str` fields become owned character lists). -/
structure Reading where
  base_form : List Char
  tags : List (List Char)
  deriving Repr, DecidableEq

/-- One input token with its tags and readings (`struct Cohort`). -/
structure Cohort where
  word_form : List Char
  tags : List (List Char)
  readings : List Reading
  deriving Repr, DecidableEq

/-- The tag computation shared by both `from_captures` functions:
`captures.get(2).filter(|x| x.as_str() != "").map(|x| x.as_str().split(" ").collect()).unwrap_or(vec![])`.
Rust's `str::split(" ")` keeps empty fragments, exactly as `List.splitOn`
does (and `"".split(" ")` yields `[""]`, i.e. `splitOn` of `[]` is `[[]]`,
but that case is removed by the `filter`). -/
def tokenize : Option (List Char) → List (List Char)
  | none => []
  | some s => if s = [] then [] else s.splitOn ' '

/-- `Cohort::from_captures`.  In a successful `RE_WORD_FORM` match group 1
always participates (it is not under `?`), so the `captures.get(1)` in the
source never returns `None`; the embedding therefore takes the two groups
produced by `reWordForm` directly. -/
def Cohort.from_captures (word_form : List Char) (g2 : Option (List Char)) : Cohort :=
  { word_form := word_form, tags := tokenize g2, readings := [] }

/-- `Reading::from_captures` (group 1 always participates, as above). -/
def Reading.from_captures (base_form : List Char) (g2 : Option (List Char)) : Reading :=
  { base_form := base_form, tags := tokenize g2 }

/-- The tag rendering loop `tags.iter().for_each(|t| { s.push_str(" "); s.push_str(t); })`. -/
def tagsRender (tags : List (List Char)) : List Char :=
  tags.flatMap (fun t => ' ' :: t)

/-- The reading rendering loop inside `Cohort::to_string`:
`"    \""` + base_form + `"\""` + tags + `"\n"`. -/
def Reading.render (r : Reading) : List Char :=
  [' ', ' ', ' ', ' ', '"'] ++ r.base_form ++ '"' :: (tagsRender r.tags ++ ['\n'])

/-- `Cohort::to_string`: `"\"<"` + word_form + `">\""` + tags + `"\n"`,
then each reading rendered in order. -/
def Cohort.to_string (c : Cohort) : List Char :=
  '"' :: '<' :: (c.word_form ++ '>' :: '"' ::
    (tagsRender c.tags ++ '\n' :: (c.readings.map Reading.render).flatten))

/-- `to_cg3_string`: concatenation of the per-cohort renderings with the
empty separator (`.join("")`). -/
def to_cg3_string (input : List Cohort) : List Char :=
  (input.map Cohort.to_string).flatten

/-- Strip one trailing carriage return. -/
def stripCR (l : List Char) : List Char :=
  if l.getLast? = some '\r' then l.dropLast else l

/-- Worker for `linesOf`; `acc` holds the current line reversed. -/
def linesAux : List Char → List Char → List (List Char)
  | acc, [] => if acc = [] then [] else [acc.reverse]
  | acc, c :: rest =>
    if c = '\n' then stripCR acc.reverse :: linesAux [] rest
    else linesAux (c :: acc) rest

/-- Rust `str::lines`: split at `\n`, strip one `\r` from the end of each
newline-terminated segment (so `\r\n` is a line ending, `\r\r\n` leaves one
`\r` on the line), keep a final segment without a newline as-is — a lone
trailing `\r` with no `\n` after it is *not* stripped — and produce no
final empty line when the input ends with `\n`. -/
def linesOf (s : List Char) : List (List Char) :=
  linesAux [] s

/-- `state.last_mut()` followed by `last_cohort.readings.push(reading)`:
append a reading to the last cohort of a non-empty state. -/
def pushReading : List Cohort → Reading → List Cohort
  | [], _ => []
  | [c], r => [{ c with readings := c.readings ++ [r] }]
  | c :: c2 :: rest, r => c :: pushReading (c2 :: rest) r

/-- The body of the fold in `from_string`: try `RE_WORD_FORM` (push a new
cohort), else bail out if the state is empty (`state.last_mut()` is
`None`), else try `RE_BASE_FORM` (push a reading onto the last cohort),
else leave the state unchanged. -/
def step (state : List Cohort) (line : List Char) : List Cohort :=
  match reWordForm line with
  | some (g1, g2) => state ++ [Cohort.from_captures g1 g2]
  | none =>
    match state with
    | [] => []
    | _ :: _ =>
      match reBaseForm line with
      | some (g1, g2) => pushReading state (Reading.from_captures g1 g2)
      | none => state

/-- `from_string`: `input.lines().fold(vec![], ...)`. -/
def from_string (input : List Char) : List Cohort :=
  (linesOf input).foldl step []

-- Sanity checks of the embedding against the behaviour of the Rust
-- tests (`basic`, `pathological`, `idempotent`).

example : from_string "\"<went>\"\n    \"go\" V PAST VFIN\n".toList =
    [{ word_form := "went".toList, tags := [],
       readings := [{ base_form := "go".toList,
                      tags := ["V".toList, "PAST".toList, "VFIN".toList] }] }] := by
  decide

example : to_cg3_string
    [{ word_form := "went".toList, tags := [],
       readings := [{ base_form := "go".toList,
                      tags := ["V".toList, "PAST".toList, "VFIN".toList] }] }] =
    "\"<went>\"\n    \"go\" V PAST VFIN\n".toList := by
  decide

example : from_string "\"<\">\"\n    \"\"\" PUNCT\n".toList =
    [{ word_form := ['"'], tags := [],
       readings := [{ base_form := ['"'], tags := ["PUNCT".toList] }] }] := by
  decide

example : from_string ": noise\n\"<.>\"\n".toList =
    [{ word_form := ['.'], tags := [], readings := [] }] := by
  decide

/-! ## Invariant predicates -/

/-- No newline character occurs in the list. -/
def noNl (l : List Char) : Bool :=
  l.all (fun a => a != '\n')

/-- The list starts with the closing sequence `>"` followed by a
whitespace character: the pattern at which the lazy word-form capture
would have closed earlier. -/
def wsAfterClose : List Char → Bool
  | c1 :: c2 :: d :: _ => c1 == '>' && c2 == '"' && rsWhitespace d
  | _ => false

/-- The list starts with `"` followed by a whitespace character: the
pattern at which the lazy base-form capture would have closed earlier. -/
def wsAfterQuote : List Char → Bool
  | c1 :: d :: _ => c1 == '"' && rsWhitespace d
  | _ => false

/-- No position inside the list starts `>"` followed (within the list) by
a whitespace character.  The lazy capture of `RE_WORD_FORM` skips exactly
the closing candidates whose remainder fails the tail pattern, so
captured word forms satisfy this, and conversely it makes a word form
re-parse exactly. -/
def noEarlyClose : List Char → Bool
  | [] => true
  | c :: r => !wsAfterClose (c :: r) && noEarlyClose r

/-- No position inside the list starts `"` followed (within the list) by
a whitespace character: the analogue of `noEarlyClose` for the
`RE_BASE_FORM` capture. -/
def noEarlyQuote : List Char → Bool
  | [] => true
  | c :: r => !wsAfterQuote (c :: r) && noEarlyQuote r

/-! ## Characterisation of the lazy captures -/

lemma tailCaptures_cons_eq_none {c : Char} {r : List Char}
    (h : rsWhitespace c = false) : tailCaptures (c :: r) = none := by
  simp [tailCaptures, h]

lemma tailCaptures_cons_of_ws {c : Char} {r : List Char}
    (hc : rsWhitespace c = true) (hr : noNl r = true) :
    tailCaptures (c :: r) = some (some r) := by
  simp only [noNl] at hr
  simp [tailCaptures, hc, hr]

lemma noNl_cons {c : Char} {r : List Char} :
    noNl (c :: r) = true ↔ c ≠ '\n' ∧ noNl r = true := by
  simp [noNl]

lemma noEarlyClose_cons {c : Char} {r : List Char}
    (h : noEarlyClose (c :: r) = true) : noEarlyClose r = true := by
  rw [noEarlyClose, Bool.and_eq_true] at h
  exact h.2

lemma noEarlyQuote_cons {c : Char} {r : List Char}
    (h : noEarlyQuote (c :: r) = true) : noEarlyQuote r = true := by
  rw [noEarlyQuote, Bool.and_eq_true] at h
  exact h.2

/-- Completeness of the lazy word-form search: a capture satisfying the
invariants, put in front of `>"` and a matching tail, is found exactly. -/
lemma wfSearch_complete (t : List Char) (rest : List Char) (g2 : Option (List Char))
    (h1 : noNl t = true) (h2 : noEarlyClose t = true)
    (h3 : tailCaptures rest = some g2) :
    wfSearch (t ++ '>' :: '"' :: rest) = some (t, g2) := by
  induction t with
  | nil => simp [wfSearch, wfClose, h3]
  | cons c T ih =>
    obtain ⟨hcn, h1T⟩ := noNl_cons.mp h1
    have hrec := ih h1T (noEarlyClose_cons h2)
    rw [List.cons_append, wfSearch]
    have hclose : (if c = '>' then wfClose (T ++ '>' :: '"' :: rest) else none) = none := by
      by_cases hc : c = '>'
      · subst hc
        rw [if_pos rfl]
        cases T with
        | nil => simp [wfClose]
        | cons e T2 =>
          rw [List.cons_append, wfClose]
          by_cases he : e = '"'
          · subst he
            rw [if_pos rfl]
            cases T2 with
            | nil => exact tailCaptures_cons_eq_none (by decide)
            | cons d T3 =>
              have hd : rsWhitespace d = false := by
                rw [noEarlyClose, Bool.and_eq_true] at h2
                have := h2.1
                simpa [wsAfterClose] using this
              exact tailCaptures_cons_eq_none hd
          · rw [if_neg he]
      · rw [if_neg hc]
    rw [hclose]
    simp [hcn, hrec]

/-- Completeness of the lazy base-form search. -/
lemma bfSearch_complete (t : List Char) (rest : List Char) (g2 : Option (List Char))
    (h1 : noNl t = true) (h2 : noEarlyQuote t = true)
    (h3 : tailCaptures rest = some g2) :
    bfSearch (t ++ '"' :: rest) = some (t, g2) := by
  induction t with
  | nil => simp [bfSearch, h3]
  | cons c T ih =>
    obtain ⟨hcn, h1T⟩ := noNl_cons.mp h1
    have hrec := ih h1T (noEarlyQuote_cons h2)
    rw [List.cons_append, bfSearch]
    have hclose : (if c = '"' then tailCaptures (T ++ '"' :: rest) else none) = none := by
      by_cases hc : c = '"'
      · subst hc
        rw [if_pos rfl]
        cases T with
        | nil => exact tailCaptures_cons_eq_none (by decide)
        | cons d T2 =>
          have hd : rsWhitespace d = false := by
            rw [noEarlyQuote, Bool.and_eq_true] at h2
            have := h2.1
            simpa [wsAfterQuote] using this
          rw [List.cons_append]
          exact tailCaptures_cons_eq_none hd
      · rw [if_neg hc]
    rw [hclose]
    simp [hcn, hrec]

/-- A failed closing attempt at the head position forces the bad pattern
`>"`+whitespace to be absent at the head of the capture. -/
lemma wsAfterClose_of_close_none {c : Char} {r t2 rest : List Char}
    (hcl : (if c = '>' then wfClose r else none) = none)
    (hdec : r = t2 ++ '>' :: '"' :: rest)
    (hnr : noNl r = true) :
    wsAfterClose (c :: t2) = false := by
  cases t2 with
  | nil => rfl
  | cons e t3 =>
    cases t3 with
    | nil => rfl
    | cons d t4 =>
      by_cases hc : c = '>'
      · subst hc
        rw [if_pos rfl] at hcl
        by_cases he : e = '"'
        · subst he
          rw [hdec, List.cons_append, wfClose, if_pos rfl] at hcl
          rw [hdec, List.cons_append, noNl_cons] at hnr
          have hd : rsWhitespace d = false := by
            by_contra hdw
            rw [List.cons_append,
              tailCaptures_cons_of_ws (by simpa using hdw)
                (by rw [List.cons_append, noNl_cons] at hnr; exact hnr.2.2)] at hcl
            exact absurd hcl (by simp)
          rw [wsAfterClose]
          simp [hd]
        · rw [wsAfterClose]
          simp [he]
      · rw [wsAfterClose]
        simp [hc]

/-- The analogue of `wsAfterClose_of_close_none` for the base-form search. -/
lemma wsAfterQuote_of_close_none {c : Char} {r t2 rest : List Char}
    (hcl : (if c = '"' then tailCaptures r else none) = none)
    (hdec : r = t2 ++ '"' :: rest)
    (hnr : noNl r = true) :
    wsAfterQuote (c :: t2) = false := by
  cases t2 with
  | nil => rfl
  | cons e t3 =>
    by_cases hc : c = '"'
    · subst hc
      rw [if_pos rfl] at hcl
      rw [hdec, List.cons_append] at hcl hnr
      have he : rsWhitespace e = false := by
        by_contra hew
        rw [tailCaptures_cons_of_ws (by simpa using hew)
          (noNl_cons.mp hnr).2] at hcl
        exact absurd hcl (by simp)
      rw [wsAfterQuote]
      simp [he]
    · rw [wsAfterQuote]
      simp [hc]

/-- Soundness of the lazy word-form search on a newline-free line: the
returned capture decomposes the text, the tail pattern matches the
remainder, and no earlier closing candidate would have succeeded (hence
no `>"` inside the capture is followed by whitespace). -/
lemma wfSearch_sound (m : List Char) (t : List Char) (g2 : Option (List Char))
    (hm : noNl m = true) (h : wfSearch m = some (t, g2)) :
    ∃ rest, m = t ++ '>' :: '"' :: rest ∧ tailCaptures rest = some g2 ∧
      noNl t = true ∧ noEarlyClose t = true := by
  induction m generalizing t with
  | nil => simp [wfSearch] at h
  | cons c r ih =>
    obtain ⟨hcn, hmr⟩ := noNl_cons.mp hm
    rw [wfSearch] at h
    cases hcl : (if c = '>' then wfClose r else none) with
    | some g2' =>
      rw [hcl] at h
      simp only [Option.some.injEq, Prod.mk.injEq] at h
      obtain ⟨ht, hg⟩ := h
      subst hg
      by_cases hc : c = '>'
      · subst hc
        rw [if_pos rfl] at hcl
        cases r with
        | nil => exact absurd hcl (by simp [wfClose])
        | cons e r2 =>
          rw [wfClose] at hcl
          by_cases he : e = '"'
          · subst he
            rw [if_pos rfl] at hcl
            refine ⟨r2, ?_, hcl, ?_, ?_⟩
            · rw [← ht]; rfl
            · rw [← ht]; rfl
            · rw [← ht]; rfl
          · rw [if_neg he] at hcl
            exact absurd hcl (by simp)
      · rw [if_neg hc] at hcl
        exact absurd hcl (by simp)
    | none =>
      rw [hcl] at h
      simp only [] at h
      rw [if_neg hcn] at h
      obtain ⟨⟨t2, g22⟩, hr, heq⟩ := Option.map_eq_some'.mp h
      simp only [Prod.mk.injEq] at heq
      obtain ⟨ht, hg⟩ := heq
      subst hg
      obtain ⟨rest, hdec, htc, hnl, hnec⟩ := ih t2 hmr hr
      refine ⟨rest, ?_, htc, ?_, ?_⟩
      · rw [← ht, hdec]; rfl
      · rw [← ht, noNl_cons]
        exact ⟨hcn, hnl⟩
      · rw [← ht, noEarlyClose, Bool.and_eq_true]
        exact ⟨by rw [wsAfterClose_of_close_none hcl hdec hmr]; rfl, hnec⟩

/-- Soundness of the lazy base-form search on a newline-free text. -/
lemma bfSearch_sound (m : List Char) (t : List Char) (g2 : Option (List Char))
    (hm : noNl m = true) (h : bfSearch m = some (t, g2)) :
    ∃ rest, m = t ++ '"' :: rest ∧ tailCaptures rest = some g2 ∧
      noNl t = true ∧ noEarlyQuote t = true := by
  induction m generalizing t with
  | nil => simp [bfSearch] at h
  | cons c r ih =>
    obtain ⟨hcn, hmr⟩ := noNl_cons.mp hm
    rw [bfSearch] at h
    cases hcl : (if c = '"' then tailCaptures r else none) with
    | some g2' =>
      rw [hcl] at h
      simp only [Option.some.injEq, Prod.mk.injEq] at h
      obtain ⟨ht, hg⟩ := h
      subst hg
      by_cases hc : c = '"'
      · subst hc
        rw [if_pos rfl] at hcl
        refine ⟨r, ?_, hcl, ?_, ?_⟩
        · rw [← ht]; rfl
        · rw [← ht]; rfl
        · rw [← ht]; rfl
      · rw [if_neg hc] at hcl
        exact absurd hcl (by simp)
    | none =>
      rw [hcl] at h
      simp only [] at h
      rw [if_neg hcn] at h
      obtain ⟨⟨t2, g22⟩, hr, heq⟩ := Option.map_eq_some'.mp h
      simp only [Prod.mk.injEq] at heq
      obtain ⟨ht, hg⟩ := heq
      subst hg
      obtain ⟨rest, hdec, htc, hnl, hnec⟩ := ih t2 hmr hr
      refine ⟨rest, ?_, htc, ?_, ?_⟩
      · rw [← ht, hdec]; rfl
      · rw [← ht, noNl_cons]
        exact ⟨hcn, hnl⟩
      · rw [← ht, noEarlyQuote, Bool.and_eq_true]
        exact ⟨by rw [wsAfterQuote_of_close_none hcl hdec hmr]; rfl, hnec⟩

/-! ## Line splitting -/

lemma stripCR_of_ne (l : List Char) (h : l.getLast? ≠ some '\r') :
    stripCR l = l := by
  simp [stripCR, h]

lemma noNl_stripCR (l : List Char) (h : noNl l = true) :
    noNl (stripCR l) = true := by
  rw [stripCR]
  split
  · simp only [noNl, List.all_eq_true] at h ⊢
    exact fun x hx => h x (List.dropLast_subset l hx)
  · exact h

/-- Splitting behaviour of `linesAux` at the first newline. -/
lemma linesAux_append : ∀ (a acc b : List Char), noNl a = true →
    linesAux acc (a ++ '\n' :: b) = stripCR (acc.reverse ++ a) :: linesAux [] b := by
  intro a
  induction a with
  | nil =>
    intro acc b _
    simp [linesAux]
  | cons c a2 ih =>
    intro acc b h
    obtain ⟨hc, ha⟩ := noNl_cons.mp h
    rw [List.cons_append, linesAux, if_neg hc, ih _ _ ha]
    simp [List.append_assoc]

/-- `linesAux` on newline-free input: a single line (or nothing). -/
lemma linesAux_no_nl : ∀ (a acc : List Char), noNl a = true →
    linesAux acc a = if acc.reverse ++ a = [] then [] else [acc.reverse ++ a] := by
  intro a
  induction a with
  | nil =>
    intro acc _
    rw [linesAux]
    by_cases hacc : acc = []
    · simp [hacc]
    · rw [if_neg hacc, if_neg (by simp [hacc])]
      simp
  | cons c a2 ih =>
    intro acc h
    obtain ⟨hc, ha⟩ := noNl_cons.mp h
    rw [linesAux, if_neg hc, ih _ ha]
    rw [if_neg (by simp), if_neg (by simp)]
    simp [List.append_assoc]

/-- `str::lines` splits at the first `\n`, stripping one `\r` from the end
of the segment before it. -/
lemma linesOf_append (a b : List Char) (h : noNl a = true) :
    linesOf (a ++ '\n' :: b) = stripCR a :: linesOf b := by
  rw [linesOf, linesAux_append a [] b h]
  rfl

/-- `str::lines` on newline-free input: one unmodified line (none if empty). -/
lemma linesOf_no_nl (a : List Char) (h : noNl a = true) :
    linesOf a = if a = [] then [] else [a] := by
  rw [linesOf, linesAux_no_nl a [] h]
  rfl

/-- Every line produced by `str::lines` is newline-free. -/
lemma noNl_of_mem_linesOf {s l : List Char} (hl : l ∈ linesOf s) :
    noNl l = true := by
  rw [linesOf] at hl
  suffices h : ∀ (s acc : List Char), noNl acc = true →
      ∀ l ∈ linesAux acc s, noNl l = true from h s [] rfl l hl
  intro s
  induction s with
  | nil =>
    intro acc hacc l hl
    rw [linesAux] at hl
    split at hl
    · exact absurd hl (List.not_mem_nil l)
    · rw [List.mem_singleton] at hl
      subst hl
      rw [noNl, List.all_reverse]
      exact hacc
  | cons c rest ih =>
    intro acc hacc l hl
    rw [linesAux] at hl
    by_cases hc : c = '\n'
    · rw [if_pos hc] at hl
      rcases List.mem_cons.mp hl with h1 | h2
      · subst h1
        exact noNl_stripCR _ (by rw [noNl, List.all_reverse]; exact hacc)
      · exact ih [] rfl l h2
    · rw [if_neg hc] at hl
      exact ih (c :: acc) (noNl_cons.mpr ⟨hc, hacc⟩) l hl

/-! ## Block structure of the serialised text -/

/-- The header line a cohort serialises to (without the terminator). -/
def headerLine (c : Cohort) : List Char :=
  '"' :: '<' :: (c.word_form ++ '>' :: '"' :: tagsRender c.tags)

/-- The line a reading serialises to (without the terminator). -/
def readingLine (r : Reading) : List Char :=
  ' ' :: ' ' :: ' ' :: ' ' :: '"' :: (r.base_form ++ '"' :: tagsRender r.tags)

/-- All lines a cohort serialises to, in order. -/
def cohortLines (c : Cohort) : List (List Char) :=
  headerLine c :: c.readings.map readingLine

lemma Reading.render_eq (r : Reading) :
    r.render = readingLine r ++ ['\n'] := by
  simp [Reading.render, readingLine]

lemma Cohort.to_string_eq (c : Cohort) :
    c.to_string = ((cohortLines c).map (fun l => l ++ ['\n'])).flatten := by
  simp only [Cohort.to_string, cohortLines, headerLine, List.map_cons,
    List.flatten_cons, List.map_map]
  have : (fun l => l ++ ['\n']) ∘ readingLine = Reading.render := by
    funext r
    rw [Function.comp, Reading.render_eq]
  rw [this]
  simp

lemma to_cg3_string_eq (cs : List Cohort) :
    to_cg3_string cs = ((cs.flatMap cohortLines).map (fun l => l ++ ['\n'])).flatten := by
  induction cs with
  | nil => rfl
  | cons c cs2 ih =>
    simp only [to_cg3_string, List.map_cons, List.flatten_cons] at ih ⊢
    rw [ih, List.flatMap_cons, List.map_append, List.flatten_append,
      Cohort.to_string_eq]

/-! ## Well-formedness of cohort data

The conditions under which serialised cohort data re-parses exactly:
fields contain no newline, the word form contains no `>"`-then-whitespace
(the spec's invariant that the word form "never contains the literal
sequence that would terminate its delimiter early"), the base form
likewise for `"`, and tag tokens are nonempty and free of the space
separator ("single-space tag separators"). -/

/-- Canonical tag tokens: nonempty, no newline, no space. -/
def TagsWF (ts : List (List Char)) : Bool :=
  ts.all (fun t => !t.isEmpty && noNl t && t.all (fun a => a != ' '))

/-- Well-formed reading data. -/
def ReadingWF (r : Reading) : Bool :=
  noNl r.base_form && noEarlyQuote r.base_form && TagsWF r.tags

/-- Well-formed cohort data. -/
def CohortWF (c : Cohort) : Bool :=
  noNl c.word_form && noEarlyClose c.word_form && TagsWF c.tags &&
    c.readings.all ReadingWF

/-- Well-formed cohort sequence. -/
def SeqWF (cs : List Cohort) : Bool :=
  cs.all CohortWF

/-- Capture group 2 produced by re-parsing a rendered tag list. -/
def tagOpt : List (List Char) → Option (List Char)
  | [] => none
  | t :: ts => some (t ++ tagsRender ts)

lemma cohortWF_parts {c : Cohort} (h : CohortWF c = true) :
    noNl c.word_form = true ∧ noEarlyClose c.word_form = true ∧
      TagsWF c.tags = true ∧ c.readings.all ReadingWF = true := by
  simpa [CohortWF, Bool.and_assoc] using h

lemma readingWF_parts {r : Reading} (h : ReadingWF r = true) :
    noNl r.base_form = true ∧ noEarlyQuote r.base_form = true ∧
      TagsWF r.tags = true := by
  simpa [ReadingWF, Bool.and_assoc] using h

lemma TagsWF_cons {t : List Char} {ts : List (List Char)}
    (h : TagsWF (t :: ts) = true) :
    t ≠ [] ∧ noNl t = true ∧ t.all (fun a => a != ' ') = true ∧
      TagsWF ts = true := by
  simp only [TagsWF, List.all_cons, Bool.and_eq_true] at h
  refine ⟨?_, h.1.1.2, h.1.2, h.2⟩
  simpa using h.1.1.1

lemma noNl_tagsRender {ts : List (List Char)} (h : TagsWF ts = true) :
    noNl (tagsRender ts) = true := by
  induction ts with
  | nil => rfl
  | cons t ts2 ih =>
    obtain ⟨_, hnl, _, hts⟩ := TagsWF_cons h
    simp only [tagsRender, List.flatMap_cons] at ih ⊢
    rw [noNl, List.cons_append, List.all_cons, List.all_append]
    simp only [noNl] at hnl
    rw [hnl]
    simpa [noNl] using ih hts

/-- Re-parsing the rendered tag list: the tail pattern matches and yields
exactly the group `tagOpt`. -/
lemma tailCaptures_tagsRender {ts : List (List Char)} (h : TagsWF ts = true) :
    tailCaptures (tagsRender ts) = some (tagOpt ts) := by
  cases ts with
  | nil => rfl
  | cons t ts2 =>
    obtain ⟨_, hnl, _, hts⟩ := TagsWF_cons h
    have hrest : noNl (t ++ tagsRender ts2) = true := by
      rw [noNl, List.all_append]
      simp only [noNl] at hnl
      rw [hnl]
      simpa [noNl] using noNl_tagsRender hts
    simp only [tagsRender, List.flatMap_cons, tagOpt, List.cons_append]
    exact tailCaptures_cons_of_ws (by decide) (by simpa [tagsRender] using hrest)

/-- Splitting a space-joined tag list recovers the tags. -/
lemma splitOn_tagsRender (t : List Char) (ts : List (List Char))
    (h : TagsWF (t :: ts) = true) :
    (t ++ tagsRender ts).splitOn ' ' = t :: ts := by
  induction ts generalizing t with
  | nil =>
    obtain ⟨_, _, hsp, _⟩ := TagsWF_cons h
    rw [tagsRender, List.flatMap_nil, List.append_nil, List.splitOn]
    rw [List.splitOnP_eq_single _ t]
    intro a ha
    have := List.all_eq_true.mp hsp a ha
    simpa using this
  | cons u ts2 ih =>
    obtain ⟨hne, hnl, hsp, hts⟩ := TagsWF_cons h
    show (t ++ (' ' :: (u ++ tagsRender ts2))).splitOn ' ' = t :: u :: ts2
    rw [List.splitOn, List.splitOnP_first _ t ?_ ' ' (by simp)]
    · rw [← List.splitOn, ih u hts]
    · intro a ha
      have := List.all_eq_true.mp hsp a ha
      simpa using this

/-- `tokenize` of the re-captured group recovers the tag list. -/
lemma tokenize_tagOpt {ts : List (List Char)} (h : TagsWF ts = true) :
    tokenize (tagOpt ts) = ts := by
  cases ts with
  | nil => rfl
  | cons t ts2 =>
    obtain ⟨hne, _, _, _⟩ := TagsWF_cons h
    rw [tagOpt, tokenize, if_neg (by simp [hne]), splitOn_tagsRender t ts2 h]

/-! ## Re-parsing the rendered lines -/

lemma reWordForm_headerLine (c : Cohort) (h : CohortWF c = true) :
    reWordForm (headerLine c) = some (c.word_form, tagOpt c.tags) := by
  obtain ⟨hnl, hnec, htw, _⟩ := cohortWF_parts h
  rw [headerLine, reWordForm, if_pos ⟨rfl, rfl⟩]
  exact wfSearch_complete _ _ _ hnl hnec (tailCaptures_tagsRender htw)

lemma reWordForm_readingLine (r : Reading) :
    reWordForm (readingLine r) = none := by
  rw [readingLine, reWordForm]
  simp

lemma reBaseForm_headerLine (c : Cohort) :
    reBaseForm (headerLine c) = none := by
  rw [headerLine, reBaseForm]
  simp [(by decide : rsWhitespace '"' = false)]

lemma reBaseForm_readingLine (r : Reading) (h : ReadingWF r = true) :
    reBaseForm (readingLine r) = some (r.base_form, tagOpt r.tags) := by
  obtain ⟨hnl, hneq, htw⟩ := readingWF_parts h
  have h1 : rsWhitespace ' ' = true := by decide
  have h2 : rsWhitespace '"' = false := by decide
  rw [readingLine, reBaseForm]
  simp only [h1, if_true, List.dropWhile_cons, h2, if_false]
  show (if '"' = '"' then bfSearch (r.base_form ++ '"' :: tagsRender r.tags)
    else none) = some (r.base_form, tagOpt r.tags)
  rw [if_pos rfl]
  exact bfSearch_complete _ _ _ hnl hneq (tailCaptures_tagsRender htw)

/-! ## The builder fold over rendered lines -/

lemma pushReading_append (acc : List Cohort) (c : Cohort) (r : Reading) :
    pushReading (acc ++ [c]) r =
      acc ++ [{ c with readings := c.readings ++ [r] }] := by
  induction acc with
  | nil => rfl
  | cons a acc2 ih =>
    cases acc2 with
    | nil => rfl
    | cons b acc3 =>
      show a :: pushReading ((b :: acc3) ++ [c]) r = _
      rw [ih]
      rfl

lemma step_headerLine (state : List Cohort) (c : Cohort) (h : CohortWF c = true) :
    step state (headerLine c) =
      state ++ [{ word_form := c.word_form, tags := c.tags, readings := [] }] := by
  rw [step.eq_def, reWordForm_headerLine c h]
  show state ++ [Cohort.from_captures c.word_form (tagOpt c.tags)] = _
  rw [Cohort.from_captures, tokenize_tagOpt (cohortWF_parts h).2.2.1]

lemma step_readingLine (acc : List Cohort) (c : Cohort) (r : Reading)
    (h : ReadingWF r = true) :
    step (acc ++ [c]) (readingLine r) =
      acc ++ [{ c with readings := c.readings ++ [r] }] := by
  have hfc : Reading.from_captures r.base_form (tagOpt r.tags) = r := by
    rw [Reading.from_captures, tokenize_tagOpt (readingWF_parts h).2.2]
  cases acc with
  | nil =>
    rw [List.nil_append, step.eq_def, reWordForm_readingLine]
    show (match reBaseForm (readingLine r) with
      | some (g1, g2) => pushReading [c] (Reading.from_captures g1 g2)
      | none => [c]) = _
    rw [reBaseForm_readingLine r h]
    show pushReading [c] (Reading.from_captures r.base_form (tagOpt r.tags)) = _
    rw [hfc]
    rfl
  | cons a acc2 =>
    rw [List.cons_append, step.eq_def, reWordForm_readingLine]
    show (match reBaseForm (readingLine r) with
      | some (g1, g2) => pushReading (a :: (acc2 ++ [c])) (Reading.from_captures g1 g2)
      | none => a :: (acc2 ++ [c])) = _
    rw [reBaseForm_readingLine r h]
    show pushReading (a :: (acc2 ++ [c])) (Reading.from_captures r.base_form (tagOpt r.tags)) = _
    rw [hfc, ← List.cons_append, pushReading_append]

lemma foldl_step_readingLines (acc : List Cohort) (w : List Char)
    (tg : List (List Char)) : ∀ (rs pre : List Reading),
    rs.all ReadingWF = true →
    List.foldl step (acc ++ [⟨w, tg, pre⟩]) (rs.map readingLine) =
      acc ++ [⟨w, tg, pre ++ rs⟩] := by
  intro rs
  induction rs with
  | nil =>
    intro pre _
    simp
  | cons r rs2 ih =>
    intro pre h
    obtain ⟨h1, h2⟩ : ReadingWF r = true ∧ rs2.all ReadingWF = true := by
      simpa using h
    rw [List.map_cons, List.foldl_cons, step_readingLine acc ⟨w, tg, pre⟩ r h1]
    show List.foldl step (acc ++ [⟨w, tg, pre ++ [r]⟩]) (rs2.map readingLine) = _
    rw [ih (pre ++ [r]) h2]
    simp

lemma foldl_step_cohortLines (acc : List Cohort) (c : Cohort)
    (h : CohortWF c = true) :
    List.foldl step acc (cohortLines c) = acc ++ [c] := by
  rw [cohortLines, List.foldl_cons, step_headerLine acc c h]
  have := foldl_step_readingLines acc c.word_form c.tags c.readings []
    (cohortWF_parts h).2.2.2
  rw [this]
  simp

lemma foldl_step_blocks : ∀ (cs acc : List Cohort), SeqWF cs = true →
    List.foldl step acc (cs.flatMap cohortLines) = acc ++ cs := by
  intro cs
  induction cs with
  | nil =>
    intro acc _
    simp
  | cons c cs2 ih =>
    intro acc h
    obtain ⟨h1, h2⟩ : CohortWF c = true ∧ SeqWF cs2 = true := by
      simpa [SeqWF] using h
    rw [List.flatMap_cons, List.foldl_append, foldl_step_cohortLines acc c h1,
      ih _ h2]
    simp

/-! ## Line endings of the rendered lines -/

/-- The final tag (if any) does not end with a carriage return: a rendered
line whose content ended with `\r` would be turned into `\r\n`, which
`str::lines` treats as one line ending, losing the `\r` on re-parse. -/
def TagsNoCR : List (List Char) → Bool
  | [] => true
  | [t] => !(t.getLast? == some '\r')
  | _ :: rest => TagsNoCR rest

/-- No cohort or reading of the sequence has a final tag ending in a
carriage return. -/
def SeqNoCR (cs : List Cohort) : Bool :=
  cs.all (fun c => TagsNoCR c.tags && c.readings.all (fun r => TagsNoCR r.tags))

lemma tagsRender_ne_nil (t : List Char) (ts : List (List Char)) :
    tagsRender (t :: ts) ≠ [] := by
  simp [tagsRender]

lemma getLast?_tagsRender : ∀ (ts : List (List Char)), ts ≠ [] →
    (∀ t ∈ ts, t ≠ []) → TagsNoCR ts = true →
    (tagsRender ts).getLast? ≠ some '\r' := by
  intro ts
  induction ts with
  | nil => intro h; exact absurd rfl h
  | cons t ts2 ih =>
    intro _ hne hcr
    cases ts2 with
    | nil =>
      have ht : t ≠ [] := hne t (List.mem_cons_self t [])
      show ((' ' :: t) ++ tagsRender []).getLast? ≠ some '\r'
      rw [show tagsRender ([] : List (List Char)) = [] from rfl, List.append_nil,
        show ' ' :: t = [' '] ++ t from rfl, List.getLast?_append_of_ne_nil _ ht]
      simpa [TagsNoCR] using hcr
    | cons u ts3 =>
      show ((' ' :: t) ++ tagsRender (u :: ts3)).getLast? ≠ some '\r'
      rw [List.getLast?_append_of_ne_nil _ (tagsRender_ne_nil u ts3)]
      exact ih (by simp) (fun x hx => hne x (List.mem_cons_of_mem t hx))
        (by simpa [TagsNoCR] using hcr)

lemma noNl_headerLine (c : Cohort) (h : CohortWF c = true) :
    noNl (headerLine c) = true := by
  obtain ⟨hnl, _, htw, _⟩ := cohortWF_parts h
  have ht := noNl_tagsRender htw
  simp only [noNl] at hnl ht ⊢
  simp [headerLine, List.all_append, hnl, ht]

lemma noNl_readingLine (r : Reading) (h : ReadingWF r = true) :
    noNl (readingLine r) = true := by
  obtain ⟨hnl, _, htw⟩ := readingWF_parts h
  have ht := noNl_tagsRender htw
  simp only [noNl] at hnl ht ⊢
  simp [readingLine, List.all_append, hnl, ht]

lemma getLast?_headerLine (c : Cohort) (h : CohortWF c = true)
    (hcr : TagsNoCR c.tags = true) :
    (headerLine c).getLast? ≠ some '\r' := by
  obtain ⟨_, _, htw, _⟩ := cohortWF_parts h
  have hrw : headerLine c =
      (['"', '<'] ++ c.word_form) ++ ('>' :: '"' :: tagsRender c.tags) := by
    simp [headerLine]
  rw [hrw, List.getLast?_append_of_ne_nil _ (by simp)]
  cases hts : c.tags with
  | nil => simp [hts, tagsRender]
  | cons t ts2 =>
    rw [show '>' :: '"' :: tagsRender (t :: ts2) =
      ['>', '"'] ++ tagsRender (t :: ts2) from rfl,
      List.getLast?_append_of_ne_nil _ (tagsRender_ne_nil t ts2)]
    refine getLast?_tagsRender (t :: ts2) (by simp) ?_ (by rw [← hts]; exact hcr)
    intro x hx
    rw [← hts] at hx
    have := List.all_eq_true.mp htw x hx
    simp only [Bool.and_eq_true] at this
    simpa using this.1.1

lemma getLast?_readingLine (r : Reading) (h : ReadingWF r = true)
    (hcr : TagsNoCR r.tags = true) :
    (readingLine r).getLast? ≠ some '\r' := by
  obtain ⟨_, _, htw⟩ := readingWF_parts h
  have hrw : readingLine r =
      ([' ', ' ', ' ', ' ', '"'] ++ r.base_form) ++ ('"' :: tagsRender r.tags) := by
    simp [readingLine]
  rw [hrw, List.getLast?_append_of_ne_nil _ (by simp)]
  cases hts : r.tags with
  | nil => simp [hts, tagsRender]
  | cons t ts2 =>
    rw [show ('"' :: tagsRender (t :: ts2) : List Char) =
      ['"'] ++ tagsRender (t :: ts2) from rfl,
      List.getLast?_append_of_ne_nil _ (tagsRender_ne_nil t ts2)]
    refine getLast?_tagsRender (t :: ts2) (by simp) ?_ (by rw [← hts]; exact hcr)
    intro x hx
    rw [← hts] at hx
    have := List.all_eq_true.mp htw x hx
    simp only [Bool.and_eq_true] at this
    simpa using this.1.1

/-- Reconstructing the lines of a rendered text. -/
lemma linesOf_flatten : ∀ (ls : List (List Char)),
    (∀ l ∈ ls, noNl l = true ∧ l.getLast? ≠ some '\r') →
    linesOf ((ls.map (fun l => l ++ ['\n'])).flatten) = ls := by
  intro ls
  induction ls with
  | nil => intro _; rfl
  | cons l ls2 ih =>
    intro h
    obtain ⟨hnl, hcr⟩ := h l (List.mem_cons_self l ls2)
    rw [List.map_cons, List.flatten_cons,
      show (l ++ ['\n']) ++ ((ls2.map (fun l => l ++ ['\n'])).flatten) =
        l ++ '\n' :: ((ls2.map (fun l => l ++ ['\n'])).flatten) by simp,
      linesOf_append _ _ hnl, stripCR_of_ne l hcr,
      ih (fun x hx => h x (List.mem_cons_of_mem l hx))]

/-- The core round trip: well-formed cohort data parses back exactly from
its serialisation. -/
lemma parse_render (cs : List Cohort) (h1 : SeqWF cs = true)
    (h2 : SeqNoCR cs = true) :
    from_string (to_cg3_string cs) = cs := by
  have hlines : ∀ l ∈ cs.flatMap cohortLines,
      noNl l = true ∧ l.getLast? ≠ some '\r' := by
    intro l hl
    rw [List.mem_flatMap] at hl
    obtain ⟨c, hc, hlc⟩ := hl
    have hcw : CohortWF c = true := List.all_eq_true.mp h1 c hc
    have hccr := List.all_eq_true.mp h2 c hc
    simp only [Bool.and_eq_true] at hccr
    rw [cohortLines] at hlc
    rcases List.mem_cons.mp hlc with h1c | h2c
    · subst h1c
      exact ⟨noNl_headerLine c hcw, getLast?_headerLine c hcw hccr.1⟩
    · rw [List.mem_map] at h2c
      obtain ⟨r, hr, hlr⟩ := h2c
      subst hlr
      have hrw : ReadingWF r = true :=
        List.all_eq_true.mp (cohortWF_parts hcw).2.2.2 r hr
      have hrcr : TagsNoCR r.tags = true :=
        List.all_eq_true.mp hccr.2 r hr
      exact ⟨noNl_readingLine r hrw, getLast?_readingLine r hrw hrcr⟩
  rw [from_string, to_cg3_string_eq, linesOf_flatten _ hlines,
    foldl_step_blocks cs [] h1, List.nil_append]

/-! ## The spec's description of the serialiser

Spec §4.3: "Per cohort, emit `"<` + word_form + `>"`, then for each tag in
order emit a single space followed by the tag token, then a line
terminator.  Then for each reading, emit four leading space characters, a
double-quoted base_form, then for each tag in order a single space
followed by the tag token, then a line terminator.  Concatenate all
cohorts' renderings in sequence order with no extra separators."  The
definitions below follow these words (tags joined with single spaces, per
the spec's "single-space tag separators" convention), to be compared with
the source's `Cohort::to_string`/`to_cg3_string`. -/

/-- Tag part of a line per the spec: nothing for no tags, else one space
then the tokens joined with single spaces. -/
def specTags (ts : List (List Char)) : List Char :=
  if ts.isEmpty then [] else ' ' :: [' '].intercalate ts

/-- A reading line per the spec's words. -/
def specReadingText (r : Reading) : List Char :=
  [' ', ' ', ' ', ' '] ++ ['"'] ++ r.base_form ++ ['"'] ++ specTags r.tags ++ ['\n']

/-- A cohort's rendering per the spec's words. -/
def specCohortText (c : Cohort) : List Char :=
  ['"', '<'] ++ c.word_form ++ ['>', '"'] ++ specTags c.tags ++ ['\n'] ++
    (c.readings.map specReadingText).flatten

/-- The whole serialisation per the spec's words. -/
def specSerialize (cs : List Cohort) : List Char :=
  (cs.map specCohortText).flatten

lemma tagsRender_eq_specTags : ∀ (ts : List (List Char)),
    tagsRender ts = specTags ts := by
  intro ts
  induction ts with
  | nil => rfl
  | cons t ts2 ih =>
    show ' ' :: (t ++ tagsRender ts2) = ' ' :: [' '].intercalate (t :: ts2)
    cases ts2 with
    | nil => simp [tagsRender, List.intercalate]
    | cons u ts3 =>
      rw [ih]
      have : ([' '] : List Char).intercalate (t :: u :: ts3) =
          t ++ ' ' :: ([' '].intercalate (u :: ts3)) := by
        simp [List.intercalate, List.intersperse]
      rw [this]
      simp [specTags]

lemma render_eq_specReadingText (r : Reading) :
    r.render = specReadingText r := by
  rw [Reading.render, specReadingText, tagsRender_eq_specTags]
  simp

lemma to_string_eq_specCohortText (c : Cohort) :
    c.to_string = specCohortText c := by
  rw [Cohort.to_string, specCohortText, tagsRender_eq_specTags]
  have : c.readings.map Reading.render = c.readings.map specReadingText :=
    List.map_congr_left (fun r _ => render_eq_specReadingText r)
  rw [← this]
  simp

lemma to_cg3_string_eq_specSerialize (cs : List Cohort) :
    to_cg3_string cs = specSerialize cs := by
  rw [to_cg3_string, specSerialize]
  exact congrArg List.flatten
    (List.map_congr_left (fun c _ => to_string_eq_specCohortText c))

/-- A text in canonical serialised form: the spec-worded rendering of some
well-formed cohort data (one cohort header line per word, readings on
four-space-indented lines, single-space tag separators, no blank or
comment lines; fields satisfy the spec's stated invariants — word forms
do not contain an early closing sequence, tag tokens are nonempty and
space-free, no field spans lines). -/
def Canonical (text : List Char) : Prop :=
  ∃ cs, SeqWF cs = true ∧ text = specSerialize cs

/-! ## Behaviour of `step` on general lines -/

/-- A line matching neither pattern leaves the state unchanged. -/
lemma step_unmatched (state : List Cohort) (line : List Char)
    (h1 : reWordForm line = none) (h2 : reBaseForm line = none) :
    step state line = state := by
  rw [step.eq_def, h1]
  cases state with
  | nil => rfl
  | cons c state2 =>
    show (match reBaseForm line with
      | some (g1, g2) => pushReading (c :: state2) (Reading.from_captures g1 g2)
      | none => c :: state2) = c :: state2
    rw [h2]

/-- With an empty state, any non-header line leaves the state empty (the
`state.last_mut()` bail-out; in particular an orphan reading line is
dropped before `RE_BASE_FORM` is even tried). -/
lemma step_nil_of_no_header (line : List Char) (h : reWordForm line = none) :
    step [] line = [] := by
  rw [step.eq_def, h]

/-- A header-matching line appends exactly one cohort built from its
captures. -/
lemma step_header_general (state : List Cohort) (line : List Char)
    (g1 : List Char) (g2 : Option (List Char))
    (h : reWordForm line = some (g1, g2)) :
    step state line = state ++ [Cohort.from_captures g1 g2] := by
  rw [step.eq_def, h]

/-- A reading-matching, non-header line on a nonempty state appends one
reading to the last cohort. -/
lemma step_reading_general (acc : List Cohort) (c : Cohort) (line : List Char)
    (g1 : List Char) (g2 : Option (List Char))
    (h1 : reWordForm line = none) (h2 : reBaseForm line = some (g1, g2)) :
    step (acc ++ [c]) line =
      acc ++ [{ c with readings := c.readings ++ [Reading.from_captures g1 g2] }] := by
  cases acc with
  | nil =>
    rw [List.nil_append, step.eq_def, h1]
    show (match reBaseForm line with
      | some (g1, g2) => pushReading [c] (Reading.from_captures g1 g2)
      | none => [c]) = _
    rw [h2]
    rfl
  | cons a acc2 =>
    rw [List.cons_append, step.eq_def, h1]
    show (match reBaseForm line with
      | some (g1, g2) => pushReading (a :: (acc2 ++ [c])) (Reading.from_captures g1 g2)
      | none => a :: (acc2 ++ [c])) = _
    rw [h2]
    show pushReading (a :: (acc2 ++ [c])) (Reading.from_captures g1 g2) = _
    rw [← List.cons_append, pushReading_append]

/-- A reading-pattern match implies the header pattern cannot match: the
reading pattern starts with whitespace, the header pattern with `"`. -/
lemma reWordForm_none_of_baseForm (line : List Char) (p : List Char × Option (List Char))
    (h : reBaseForm line = some p) : reWordForm line = none := by
  cases line with
  | nil => rfl
  | cons c r =>
    have hc : rsWhitespace c = true := by
      by_contra hcw
      rw [reBaseForm] at h
      simp only [Bool.not_eq_true] at hcw
      rw [if_neg (by simp [hcw])] at h
      exact absurd h (by simp)
    cases r with
    | nil => rfl
    | cons c2 m =>
      rw [reWordForm, if_neg]
      intro hand
      rw [hand.1] at hc
      exact absurd hc (by decide)

/-- The capture a reading-pattern line would contribute. -/
def readingOf (line : List Char) : Reading :=
  match reBaseForm line with
  | some (g1, g2) => Reading.from_captures g1 g2
  | none => { base_form := [], tags := [] }

/-- Folding a run of reading-pattern lines onto a nonempty state appends
their readings, in encounter order, to the last cohort. -/
lemma foldl_step_reading_run (acc : List Cohort) : ∀ (ls : List (List Char))
    (c : Cohort), (∀ l ∈ ls, (reBaseForm l).isSome = true) →
    List.foldl step (acc ++ [c]) ls =
      acc ++ [{ c with readings := c.readings ++ ls.map readingOf }] := by
  intro ls
  induction ls with
  | nil =>
    intro c _
    simp
  | cons l ls2 ih =>
    intro c h
    have hl : (reBaseForm l).isSome = true := h l (List.mem_cons_self l ls2)
    obtain ⟨⟨g1, g2⟩, hp⟩ := Option.isSome_iff_exists.mp hl
    rw [List.foldl_cons,
      step_reading_general acc c l g1 g2 (reWordForm_none_of_baseForm l _ hp) hp,
      ih _ (fun x hx => h x (List.mem_cons_of_mem l hx))]
    have : readingOf l = Reading.from_captures g1 g2 := by
      rw [readingOf, hp]
    rw [List.map_cons, this]
    simp [List.append_assoc]

/-! ## Word forms reachable through `from_string` -/

lemma mem_pushReading : ∀ (state : List Cohort) (r : Reading) (c2 : Cohort),
    c2 ∈ pushReading state r → ∃ c ∈ state, c2.word_form = c.word_form := by
  intro state
  induction state with
  | nil =>
    intro r c2 h
    exact absurd h (List.not_mem_nil c2)
  | cons a state2 ih =>
    intro r c2 h
    cases state2 with
    | nil =>
      rw [show pushReading [a] r = [{ a with readings := a.readings ++ [r] }] from rfl,
        List.mem_singleton] at h
      exact ⟨a, List.mem_cons_self a [], by rw [h]⟩
    | cons b state3 =>
      rw [show pushReading (a :: b :: state3) r = a :: pushReading (b :: state3) r
        from rfl, List.mem_cons] at h
      rcases h with h | h
      · exact ⟨a, List.mem_cons_self a (b :: state3), by rw [h]⟩
      · obtain ⟨c, hc, he⟩ := ih r c2 h
        exact ⟨c, List.mem_cons_of_mem a hc, he⟩

lemma step_eq_pushReading (a : Cohort) (st2 : List Cohort) (line : List Char)
    (g1 : List Char) (g2 : Option (List Char))
    (h1 : reWordForm line = none) (h2 : reBaseForm line = some (g1, g2)) :
    step (a :: st2) line = pushReading (a :: st2) (Reading.from_captures g1 g2) := by
  rw [step.eq_def, h1]
  show (match reBaseForm line with
    | some (g1, g2) => pushReading (a :: st2) (Reading.from_captures g1 g2)
    | none => a :: st2) = _
  rw [h2]

/-- Any member of `step state line` either keeps a word form already in
the state or is the cohort built from a header match of this line. -/
lemma mem_step (state : List Cohort) (line : List Char) (c2 : Cohort)
    (hc2 : c2 ∈ step state line) :
    (∃ c ∈ state, c2.word_form = c.word_form) ∨
    (∃ p, reWordForm line = some p ∧ c2 = Cohort.from_captures p.1 p.2) := by
  cases hw : reWordForm line with
  | some p =>
    obtain ⟨g1, g2⟩ := p
    rw [step_header_general state line g1 g2 hw, List.mem_append] at hc2
    rcases hc2 with h | h
    · exact Or.inl ⟨c2, h, rfl⟩
    · rw [List.mem_singleton] at h
      exact Or.inr ⟨(g1, g2), rfl, h⟩
  | none =>
    cases state with
    | nil =>
      rw [step_nil_of_no_header line hw] at hc2
      exact absurd hc2 (List.not_mem_nil c2)
    | cons a st2 =>
      cases hb : reBaseForm line with
      | some p =>
        obtain ⟨g1, g2⟩ := p
        rw [step_eq_pushReading a st2 line g1 g2 hw hb] at hc2
        exact Or.inl (mem_pushReading (a :: st2) _ c2 hc2)
      | none =>
        rw [step_unmatched (a :: st2) line hw hb] at hc2
        exact Or.inl ⟨c2, hc2, rfl⟩

lemma reWordForm_some_inv (line : List Char) (p : List Char × Option (List Char))
    (h : reWordForm line = some p) :
    ∃ m, line = '"' :: '<' :: m ∧ wfSearch m = some p := by
  cases line with
  | nil => exact absurd h (by simp [reWordForm])
  | cons c1 r =>
    cases r with
    | nil => exact absurd h (by simp [reWordForm])
    | cons c2 m =>
      rw [reWordForm] at h
      by_cases hc : c1 = '"' ∧ c2 = '<'
      · rw [if_pos hc] at h
        exact ⟨m, by rw [hc.1, hc.2], h⟩
      · rw [if_neg hc] at h
        exact absurd h (by simp)

/-- Every cohort reachable by folding `step` over newline-free lines has a
word form free of the `>"`-then-whitespace pattern. -/
lemma noEarlyClose_foldl : ∀ (ls : List (List Char)) (state : List Cohort),
    (∀ l ∈ ls, noNl l = true) →
    (∀ c ∈ state, noEarlyClose c.word_form = true) →
    ∀ c ∈ List.foldl step state ls, noEarlyClose c.word_form = true := by
  intro ls
  induction ls with
  | nil =>
    intro state _ hs c hc
    exact hs c hc
  | cons l ls2 ih =>
    intro state hnl hs c hc
    rw [List.foldl_cons] at hc
    refine ih (step state l)
      (fun x hx => hnl x (List.mem_cons_of_mem l hx)) ?_ c hc
    intro c2 hc2
    rcases mem_step state l c2 hc2 with ⟨c3, hc3, he⟩ | ⟨p, hw, he⟩
    · rw [he]
      exact hs c3 hc3
    · obtain ⟨m, hlm, hws⟩ := reWordForm_some_inv l p hw
      have hnlm : noNl m = true := by
        have := hnl l (List.mem_cons_self l ls2)
        rw [hlm, noNl_cons] at this
        exact (noNl_cons.mp this.2).2
      obtain ⟨rest, _, _, _, hnec⟩ := wfSearch_sound m p.1 p.2 hnlm hws
      rw [he]
      exact hnec

/-! ## Characterisation of reading-pattern matches -/

lemma tailCaptures_some_cases (rest : List Char) (g2 : Option (List Char))
    (h : tailCaptures rest = some g2) :
    (rest = [] ∧ g2 = none) ∨
    (∃ w r2, rest = w :: r2 ∧ rsWhitespace w = true ∧ noNl r2 = true ∧
      g2 = some r2) := by
  cases rest with
  | nil =>
    left
    exact ⟨rfl, by simpa [tailCaptures] using h.symm⟩
  | cons w r2 =>
    right
    rw [tailCaptures] at h
    cases hcond : (rsWhitespace w && r2.all (fun a => a != '\n')) with
    | false =>
      rw [hcond] at h
      exact absurd h (by simp)
    | true =>
      rw [hcond] at h
      simp only [if_true, Option.some.injEq] at h
      rw [Bool.and_eq_true] at hcond
      exact ⟨w, r2, rfl, hcond.1, hcond.2, h.symm⟩

lemma noNl_suffix {l m : List Char} (hs : m <:+ l) (h : noNl l = true) :
    noNl m = true := by
  simp only [noNl, List.all_eq_true] at h ⊢
  exact fun x hx => h x (hs.subset hx)

/-- Full characterisation of a `RE_BASE_FORM` match on a newline-free
line: maximal nonempty leading whitespace, lazily captured base form (no
internal quote followed by whitespace), and the optional whitespace-then-
tag-string tail. -/
lemma reBaseForm_some_inv (line : List Char) (b : List Char)
    (g2 : Option (List Char)) (hnl : noNl line = true)
    (h : reBaseForm line = some (b, g2)) :
    ∃ sp rest, sp ≠ [] ∧ sp.all rsWhitespace = true ∧
      line = sp ++ '"' :: (b ++ '"' :: rest) ∧
      ((rest = [] ∧ g2 = none) ∨
        (∃ w r2, rest = w :: r2 ∧ rsWhitespace w = true ∧ g2 = some r2)) ∧
      noEarlyQuote b = true := by
  cases line with
  | nil => exact absurd h (by simp [reBaseForm])
  | cons c r =>
    rw [reBaseForm] at h
    by_cases hc : rsWhitespace c = true
    · rw [if_pos hc] at h
      cases hd : (c :: r).dropWhile rsWhitespace with
      | nil =>
        rw [hd] at h
        exact absurd h (by simp)
      | cons d m =>
        rw [hd] at h
        change (if d = '"' then bfSearch m else none) = some (b, g2) at h
        by_cases hdq : d = '"'
        · rw [if_pos hdq] at h
          have hnlm : noNl m = true := by
            refine noNl_suffix ?_ hnl
            have : d :: m <:+ c :: r := by
              rw [← hd]
              exact List.dropWhile_suffix rsWhitespace
            exact (List.suffix_cons d m).trans this
          obtain ⟨rest, hm, htc, _, hneq⟩ := bfSearch_sound m b g2 hnlm h
          refine ⟨(c :: r).takeWhile rsWhitespace, rest, ?_, ?_, ?_, ?_, hneq⟩
          · simp [List.takeWhile_cons, hc]
          · rw [List.all_eq_true]
            exact fun x hx => List.mem_takeWhile_imp hx
          · conv_lhs => rw [← List.takeWhile_append_dropWhile rsWhitespace (c :: r)]
            rw [hd, hdq, hm]
          · rcases tailCaptures_some_cases rest g2 htc with ⟨h1, h2⟩ | ⟨w, r2, h1, h2, _, h4⟩
            · exact Or.inl ⟨h1, h2⟩
            · exact Or.inr ⟨w, r2, h1, h2, h4⟩
        · rw [if_neg hdq] at h
          exact absurd h (by simp)
    · rw [if_neg hc] at h
      exact absurd h (by simp)

/-! ## Carriage-return handling of the line splitter -/

lemma stripCR_concat (a : List Char) : stripCR (a ++ ['\r']) = a := by
  rw [stripCR, if_pos (by simp), List.dropLast_concat]

/-- A `\r\n` pair acts as one line ending: the `\r` is stripped. -/
lemma linesOf_crlf (a b : List Char) (h : noNl a = true) :
    linesOf (a ++ '\r' :: '\n' :: b) = a :: linesOf b := by
  rw [show a ++ '\r' :: '\n' :: b = (a ++ ['\r']) ++ '\n' :: b by simp,
    linesOf_append _ _ ?_, stripCR_concat]
  rw [noNl, List.all_append]
  simp only [noNl] at h
  simp [h]

lemma linesOf_flattenCRLF : ∀ (ls : List (List Char)),
    (∀ l ∈ ls, noNl l = true) →
    linesOf ((ls.map (fun l => l ++ ['\r', '\n'])).flatten) = ls := by
  intro ls
  induction ls with
  | nil => intro _; rfl
  | cons l ls2 ih =>
    intro h
    rw [List.map_cons, List.flatten_cons,
      show (l ++ ['\r', '\n']) ++ ((ls2.map (fun l => l ++ ['\r', '\n'])).flatten) =
        l ++ '\r' :: '\n' :: ((ls2.map (fun l => l ++ ['\r', '\n'])).flatten) by simp,
      linesOf_crlf _ _ (h l (List.mem_cons_self l ls2)),
      ih (fun x hx => h x (List.mem_cons_of_mem l hx))]

/-- No carriage return occurs in the list. -/
def noCR (l : List Char) : Bool :=
  l.all (fun a => a != '\r')

lemma getLast?_ne_of_noCR (l : List Char) (h : noCR l = true) :
    l.getLast? ≠ some '\r' := by
  intro hg
  obtain ⟨hne, he⟩ := List.mem_getLast?_eq_getLast (by simp [hg] : '\r' ∈ l.getLast?)
  have : ('\r' : Char) ∈ l := he ▸ List.getLast_mem hne
  have := List.all_eq_true.mp h _ this
  simp at this

/-! ## Claim-side definitions (for comparison against the code) -/

/-- Modelled from the spec: the line-splitting mechanism as the
round-trip section's claim words it — split on the newline character and
strip one trailing carriage return from *each* resulting line, including
a final line not terminated by a newline.  To be compared with `linesOf`
(Rust `str::lines`), which strips a `\r` only from newline-terminated
segments. -/
def claimLinesAux : List Char → List Char → List (List Char)
  | acc, [] => if acc = [] then [] else [stripCR acc.reverse]
  | acc, c :: rest =>
    if c = '\n' then stripCR acc.reverse :: claimLinesAux [] rest
    else claimLinesAux (c :: acc) rest

/-- Modelled from the spec: see `claimLinesAux`. -/
def claimLinesOf (s : List Char) : List (List Char) :=
  claimLinesAux [] s

/-- Modelled from the spec: the trailing tag string as the spec words it —
"everything after the first whitespace *run* following the closing
quote", i.e. the whole run of whitespace is skipped.  To be compared with
the code, where the regex consumes exactly one whitespace character and
group 2 keeps any further whitespace. -/
def claimTagString (rest : List Char) : List Char :=
  rest.dropWhile rsWhitespace

/-- Modelled from the spec: the tags the claim's extraction rule would
produce from the text after the closing quote. -/
def claimTags (rest : List Char) : List (List Char) :=
  if claimTagString rest = [] then [] else (claimTagString rest).splitOn ' '

/-! ## Completeness at the line level -/

lemma dropWhile_ws_append : ∀ (sp X : List Char), sp.all rsWhitespace = true →
    (sp ++ '"' :: X).dropWhile rsWhitespace = '"' :: X := by
  intro sp
  induction sp with
  | nil =>
    intro X _
    simp [List.dropWhile_cons, (by decide : rsWhitespace '"' = false)]
  | cons a sp2 ih =>
    intro X h
    rw [List.all_cons, Bool.and_eq_true] at h
    rw [List.cons_append, List.dropWhile_cons, if_pos h.1]
    exact ih X h.2

/-- A header line assembled from a capture satisfying the invariants
matches `RE_WORD_FORM` with exactly that capture. -/
lemma reWordForm_complete (t rest : List Char) (g2 : Option (List Char))
    (h1 : noNl t = true) (h2 : noEarlyClose t = true)
    (htc : tailCaptures rest = some g2) :
    reWordForm ('"' :: '<' :: (t ++ '>' :: '"' :: rest)) = some (t, g2) := by
  rw [reWordForm, if_pos ⟨rfl, rfl⟩]
  exact wfSearch_complete t rest g2 h1 h2 htc

/-- A reading line assembled from a capture satisfying the invariants
matches `RE_BASE_FORM` with exactly that capture. -/
lemma reBaseForm_complete (sp b rest : List Char) (g2 : Option (List Char))
    (hsp : sp ≠ []) (hws : sp.all rsWhitespace = true)
    (hb1 : noNl b = true) (hb2 : noEarlyQuote b = true)
    (htc : tailCaptures rest = some g2) :
    reBaseForm (sp ++ '"' :: (b ++ '"' :: rest)) = some (b, g2) := by
  cases sp with
  | nil => exact absurd rfl hsp
  | cons a sp2 =>
    have ha : rsWhitespace a = true := by
      rw [List.all_cons, Bool.and_eq_true] at hws
      exact hws.1
    rw [List.cons_append, reBaseForm, if_pos ha, ← List.cons_append,
      dropWhile_ws_append _ _ hws]
    show (if ('"' : Char) = '"' then bfSearch (b ++ '"' :: rest) else none) = _
    rw [if_pos rfl]
    exact bfSearch_complete b rest g2 hb1 hb2 htc

lemma foldl_nil_no_header : ∀ (ls : List (List Char)),
    (∀ l ∈ ls, reWordForm l = none) → List.foldl step [] ls = [] := by
  intro ls
  induction ls with
  | nil => intro _; rfl
  | cons l ls2 ih =>
    intro h
    rw [List.foldl_cons, step_nil_of_no_header l (h l (List.mem_cons_self l ls2))]
    exact ih (fun x hx => h x (List.mem_cons_of_mem l hx))

/-! ## The claims -/

/-- C1 (corrected): round-trip fidelity.  For canonical text — the
spec-worded rendering `specSerialize cs` of well-formed cohort data —
with the added proviso that no line's content ends in a carriage return
(`SeqNoCR`), parsing is a left inverse of serialising:
`from_string text = cs`, `to_cg3_string (from_string text) = text`
byte-for-byte, and the parsed sequence round-trips structurally.
Without the proviso the claim fails (see the counterexample): a final
tag ending in `\r` renders as `...\r\n`, which Rust's `str::lines`
treats as a single CRLF line ending, so one `\r` is lost on re-parse. -/
theorem c1_round_trip : ∀ (cs : List Cohort), SeqWF cs = true →
    SeqNoCR cs = true →
    from_string (specSerialize cs) = cs ∧
    to_cg3_string (from_string (specSerialize cs)) = specSerialize cs ∧
    from_string (to_cg3_string (from_string (specSerialize cs))) =
      from_string (specSerialize cs) := by
  intro cs h1 h2
  have hps : from_string (specSerialize cs) = cs := by
    rw [← to_cg3_string_eq_specSerialize]
    exact parse_render cs h1 h2
  refine ⟨hps, ?_, ?_⟩
  · rw [hps, to_cg3_string_eq_specSerialize]
  · rw [hps, to_cg3_string_eq_specSerialize]
    exact hps

/-- C1 counterexample: the text `"<a>" x\r\n` is canonical in the
claim's sense (one header line, single-space tag separator, no blank or
comment lines — the tag token happens to end in `\r`), yet serialising
its parse drops the `\r`, so `to_cg3_string (from_string text) ≠ text`. -/
theorem c1_counterexample :
    Canonical "\"<a>\" x\r\n".toList ∧
    to_cg3_string (from_string "\"<a>\" x\r\n".toList) ≠ "\"<a>\" x\r\n".toList := by
  constructor
  · exact ⟨[{ word_form := ['a'], tags := [['x', '\r']], readings := [] }],
      by decide, by decide⟩
  · decide

/-- C1 witness: the amended round trip at the spec's own example. -/
theorem c1_round_trip_witness :
    SeqWF [{ word_form := "went".toList, tags := [],
             readings := [{ base_form := "go".toList,
                            tags := ["V".toList, "PAST".toList, "VFIN".toList] }] }] = true ∧
    from_string (specSerialize
      [{ word_form := "went".toList, tags := [],
         readings := [{ base_form := "go".toList,
                        tags := ["V".toList, "PAST".toList, "VFIN".toList] }] }]) =
      [{ word_form := "went".toList, tags := [],
         readings := [{ base_form := "go".toList,
                        tags := ["V".toList, "PAST".toList, "VFIN".toList] }] }] :=
  ⟨by decide,
    (c1_round_trip
      [{ word_form := "went".toList, tags := [],
         readings := [{ base_form := "go".toList,
                        tags := ["V".toList, "PAST".toList, "VFIN".toList] }] }]
      (by decide) (by decide)).1⟩

/-- C2 (confirmed): parse totality and noise tolerance.  `from_string`
is total by construction (the embedding is a plain fold with no failure
path, mirroring the panic-free Rust code); a line matching neither
pattern leaves the accumulated state unchanged — hence contributes
nothing to any later `to_cg3_string` output — and empty or all-unmatched
input parses to the empty sequence. -/
theorem c2_total_noise :
    from_string [] = [] ∧
    (∀ (state : List Cohort) (line : List Char),
      reWordForm line = none → reBaseForm line = none →
      step state line = state) ∧
    (∀ input : List Char,
      (∀ l ∈ linesOf input, reWordForm l = none ∧ reBaseForm l = none) →
      from_string input = []) := by
  refine ⟨rfl, step_unmatched, ?_⟩
  intro input h
  rw [from_string]
  exact foldl_nil_no_header (linesOf input) (fun l hl => (h l hl).1)

/-- C2 witness: an unmatched comment line leaves a state unchanged, and
fully unmatched input parses to nothing. -/
theorem c2_witness :
    step [{ word_form := ['a'], tags := [], readings := [] }] ": junk".toList =
      [{ word_form := ['a'], tags := [], readings := [] }] ∧
    from_string "junk\n: more junk\n".toList = [] :=
  ⟨c2_total_noise.2.1 _ _ (by decide) (by decide),
    c2_total_noise.2.2 _ (by decide)⟩

/-- C3 (confirmed): serializer output format.  The source serialiser
agrees, cohort by cohort, with the spec's description (quoted
angle-bracketed word form, a single space before each tag, one newline;
then per reading four spaces, quoted base form, space-joined tags and a
newline), the full output being the concatenation of the per-cohort
renderings in order with no separators, and the empty sequence
serialising to the empty text. -/
theorem c3_serializer_format :
    to_cg3_string [] = [] ∧
    (∀ c : Cohort, Cohort.to_string c = specCohortText c) ∧
    (∀ cs : List Cohort, to_cg3_string cs = (cs.map Cohort.to_string).flatten) ∧
    (∀ cs : List Cohort, to_cg3_string cs = specSerialize cs) :=
  ⟨rfl, to_string_eq_specCohortText, fun _ => rfl, to_cg3_string_eq_specSerialize⟩

/-- C4 (confirmed): reading attachment.  A reading-pattern line with no
cohort header before it is dropped and the result stays empty; a header
line followed by a run of N reading-pattern lines produces exactly one
new cohort carrying those N readings in encounter order. -/
theorem c4_reading_attachment :
    (∀ (ls : List (List Char)) (line : List Char) (rest : List (List Char)),
      (∀ l ∈ ls, reWordForm l = none) → (reBaseForm line).isSome = true →
      List.foldl step [] (ls ++ line :: rest) = List.foldl step [] (ls ++ rest)) ∧
    (∀ (state : List Cohort) (h : List Char) (g1 : List Char)
      (g2 : Option (List Char)) (rs : List (List Char)),
      reWordForm h = some (g1, g2) →
      (∀ l ∈ rs, (reBaseForm l).isSome = true) →
      List.foldl step state (h :: rs) =
        state ++ [{ word_form := g1, tags := tokenize g2,
                    readings := rs.map readingOf }] ∧
      (rs.map readingOf).length = rs.length) := by
  constructor
  · intro ls line rest hls hline
    obtain ⟨p, hp⟩ := Option.isSome_iff_exists.mp hline
    rw [List.foldl_append, List.foldl_append, foldl_nil_no_header ls hls,
      List.foldl_cons, step_nil_of_no_header line (reWordForm_none_of_baseForm line p hp)]
  · intro state h g1 g2 rs hh hrs
    refine ⟨?_, List.length_map rs readingOf⟩
    rw [List.foldl_cons, step_header_general state h g1 g2 hh,
      foldl_step_reading_run state rs (Cohort.from_captures g1 g2) hrs]
    rfl

/-- C4 witness: an orphan reading is dropped; a header plus two readings
yields one cohort with two readings in order. -/
theorem c4_witness :
    List.foldl step [] ([] ++ "    \"go\" V".toList :: []) =
      List.foldl step [] ([] ++ []) ∧
    List.foldl step []
      ("\"<w>\"".toList :: ["    \"a\" X".toList, "    \"b\" Y".toList]) =
      [] ++ [{ word_form := ['w'], tags := tokenize none,
               readings := ["    \"a\" X".toList, "    \"b\" Y".toList].map readingOf }] :=
  ⟨c4_reading_attachment.1 [] _ [] (by simp) (by decide),
   (c4_reading_attachment.2 [] _ ['w'] none _ (by decide) (by decide)).1⟩

/-- C5 (corrected): trailing tag-string extraction and tokenisation.
The regexes consume exactly ONE whitespace character after the closing
quote — not the whole whitespace run, as the claim states — and the tag
string is everything after that single character, split on single space
characters with no whitespace collapsing.  For both header and reading
lines: a closing quote followed by a whitespace character `w` and text
`g` captures exactly `g` as the tag string (even when `g` starts with
more whitespace) and stores `g.splitOn ' '`. -/
theorem c5_tag_extraction :
    (∀ (t g : List Char) (w : Char), noNl t = true → noEarlyClose t = true →
      rsWhitespace w = true → noNl g = true → g ≠ [] →
      reWordForm ('"' :: '<' :: (t ++ '>' :: '"' :: w :: g)) = some (t, some g) ∧
      (Cohort.from_captures t (some g)).tags = g.splitOn ' ') ∧
    (∀ (sp b g : List Char) (w : Char), sp ≠ [] → sp.all rsWhitespace = true →
      noNl b = true → noEarlyQuote b = true → rsWhitespace w = true →
      noNl g = true → g ≠ [] →
      reBaseForm (sp ++ '"' :: (b ++ '"' :: w :: g)) = some (b, some g) ∧
      (Reading.from_captures b (some g)).tags = g.splitOn ' ') := by
  constructor
  · intro t g w h1 h2 hw hg hne
    refine ⟨reWordForm_complete t (w :: g) (some g) h1 h2
      (tailCaptures_cons_of_ws hw hg), ?_⟩
    show tokenize (some g) = g.splitOn ' '
    rw [tokenize, if_neg hne]
  · intro sp b g w hsp hws h1 h2 hw hg hne
    refine ⟨reBaseForm_complete sp b (w :: g) (some g) hsp hws h1 h2
      (tailCaptures_cons_of_ws hw hg), ?_⟩
    show tokenize (some g) = g.splitOn ' '
    rw [tokenize, if_neg hne]

/-- C5 counterexample: on the line `"<a>"  X` (two spaces), the claim's
extraction rule (skip the whole whitespace run) predicts the tag string
`X` and tags `["X"]`, but the code stores the tag string ` X` and the
tags `["", "X"]`. -/
theorem c5_counterexample :
    from_string "\"<a>\"  X\n".toList =
      [{ word_form := ['a'], tags := [[], ['X']], readings := [] }] ∧
    claimTags "  X".toList = [['X']] ∧
    ([[], ['X']] : List (List Char)) ≠ [['X']] := by
  refine ⟨by decide, by decide, by decide⟩

/-- C5 witness: a single space then ` X` as tag string, kept uncollapsed. -/
theorem c5_witness :
    reWordForm ('"' :: '<' :: (['a'] ++ '>' :: '"' :: ' ' :: [' ', 'X'])) =
      some (['a'], some [' ', 'X']) ∧
    (Cohort.from_captures ['a'] (some [' ', 'X'])).tags = [' ', 'X'].splitOn ' ' :=
  c5_tag_extraction.1 ['a'] [' ', 'X'] ' ' (by decide) (by decide) (by decide)
    (by decide) (by decide)

/-- C6 (corrected): the captured word form is the shortest text for which
the whole line matches, which is NOT always "up to the first `>\"`
sequence": when the first `>"` is followed by something other than
whitespace or end of line the lazy capture extends past it, so a stored
word form CAN contain `>"`.  Parsing `"<a>"b>" x` stores the word form
`a>"b`, which contains the closing sequence. -/
theorem c6_counterexample :
    (from_string "\"<a>\"b>\" x\n".toList).map Cohort.word_form =
      [['a', '>', '"', 'b']] ∧
    (['a', '>', '"', 'b'] : List Char) = ['a'] ++ '>' :: '"' :: ['b'] :=
  ⟨by decide, rfl⟩

/-- C6 (amended): what does hold is the weaker invariant that a stored
word form never contains `>"` immediately followed by a whitespace
character (such a position would have been a successful earlier closing
candidate for the lazy capture). -/
theorem c6_word_form_invariant : ∀ (input : List Char),
    ∀ c ∈ from_string input, noEarlyClose c.word_form = true := by
  intro input c hc
  rw [from_string] at hc
  exact noEarlyClose_foldl (linesOf input) []
    (fun l hl => noNl_of_mem_linesOf hl)
    (fun c2 hc2 => absurd hc2 (List.not_mem_nil c2)) c hc

/-- C6 witness: the invariant at the counterexample's parsed cohort. -/
theorem c6_witness :
    noEarlyClose (Cohort.mk ['a', '>', '"', 'b'] [['x']] []).word_form = true :=
  c6_word_form_invariant "\"<a>\"b>\" x\n".toList _ (by decide)

/-- C7 (confirmed): nested-quote tolerance.  Any reading-pattern match on
a newline-free line decomposes it as nonempty leading whitespace, a
quoted base form, and an optional whitespace-then-tag-string tail; the
base form ends at the FIRST quote followed by whitespace or end of line
(`noEarlyQuote`), so a `"<...>"` sub-token inside the trailing tags is
left to the tag string. -/
theorem c7_nested_quotes : ∀ (line b : List Char) (g2 : Option (List Char)),
    noNl line = true → reBaseForm line = some (b, g2) →
    ∃ sp rest, sp ≠ [] ∧ sp.all rsWhitespace = true ∧
      line = sp ++ '"' :: (b ++ '"' :: rest) ∧
      ((rest = [] ∧ g2 = none) ∨
        (∃ w r2, rest = w :: r2 ∧ rsWhitespace w = true ∧ g2 = some r2)) ∧
      noEarlyQuote b = true :=
  reBaseForm_some_inv

/-- C7 witness: the characterisation at a reading line whose tags contain
a nested `"<...>"` token; only the first quoted field becomes the base
form. -/
theorem c7_witness :
    reBaseForm "    \"save\" N \"<save>\" @SUBJ>".toList =
      some ("save".toList, some "N \"<save>\" @SUBJ>".toList) ∧
    (∃ sp rest, sp ≠ [] ∧ sp.all rsWhitespace = true ∧
      "    \"save\" N \"<save>\" @SUBJ>".toList =
        sp ++ '"' :: ("save".toList ++ '"' :: rest) ∧
      ((rest = [] ∧ (some "N \"<save>\" @SUBJ>".toList : Option (List Char)) = none) ∨
        (∃ w r2, rest = w :: r2 ∧ rsWhitespace w = true ∧
          (some "N \"<save>\" @SUBJ>".toList : Option (List Char)) = some r2)) ∧
      noEarlyQuote "save".toList = true) :=
  ⟨by decide, c7_nested_quotes _ _ _ (by decide) (by decide)⟩

/-- C8 (corrected): empty tags.  A header or reading line with nothing
after the closing quote, or with exactly ONE trailing whitespace
character, yields the empty tag sequence (group 2 is absent or empty and
the `filter` removes the empty string before splitting).  The claim's
parenthetical "the line ends in whitespace with nothing after it" is
however false for longer whitespace runs: two or more trailing spaces
produce non-empty tag sequences of empty tokens (see the
counterexample). -/
theorem c8_empty_tags :
    (∀ t : List Char, noNl t = true → noEarlyClose t = true →
      reWordForm ('"' :: '<' :: (t ++ '>' :: '"' :: [])) = some (t, none) ∧
      (∀ w : Char, rsWhitespace w = true →
        reWordForm ('"' :: '<' :: (t ++ '>' :: '"' :: [w])) = some (t, some [])) ∧
      (Cohort.from_captures t none).tags = [] ∧
      (Cohort.from_captures t (some [])).tags = []) ∧
    (∀ sp b : List Char, sp ≠ [] → sp.all rsWhitespace = true →
      noNl b = true → noEarlyQuote b = true →
      reBaseForm (sp ++ '"' :: (b ++ '"' :: [])) = some (b, none) ∧
      (∀ w : Char, rsWhitespace w = true →
        reBaseForm (sp ++ '"' :: (b ++ '"' :: [w])) = some (b, some [])) ∧
      (Reading.from_captures b none).tags = [] ∧
      (Reading.from_captures b (some [])).tags = []) := by
  constructor
  · intro t h1 h2
    exact ⟨reWordForm_complete t [] none h1 h2 rfl,
      fun w hw => reWordForm_complete t [w] (some []) h1 h2
        (tailCaptures_cons_of_ws hw rfl),
      rfl, rfl⟩
  · intro sp b hsp hws h1 h2
    exact ⟨reBaseForm_complete sp b [] none hsp hws h1 h2 rfl,
      fun w hw => reBaseForm_complete sp b [w] (some []) hsp hws h1 h2
        (tailCaptures_cons_of_ws hw rfl),
      rfl, rfl⟩

/-- C8 counterexample: a header line ending in TWO spaces (whitespace
with nothing after it) stores the tags `["", ""]`, not the empty
sequence; same for a reading line. -/
theorem c8_counterexample :
    from_string "\"<a>\"  \n".toList =
      [{ word_form := ['a'], tags := [[], []], readings := [] }] ∧
    ([[], []] : List (List Char)) ≠ [] ∧
    from_string "\"<a>\"\n    \"b\"  \n".toList =
      [{ word_form := ['a'], tags := [],
         readings := [{ base_form := ['b'], tags := [[], []] }] }] := by
  refine ⟨by decide, by decide, by decide⟩

/-- C8 witness: no trailing content, and one trailing space, both give
empty tags. -/
theorem c8_witness :
    reWordForm ('"' :: '<' :: (['a'] ++ '>' :: '"' :: [])) = some (['a'], none) ∧
    reWordForm ('"' :: '<' :: (['a'] ++ '>' :: '"' :: [' '])) = some (['a'], some []) ∧
    (Cohort.from_captures ['a'] (some [])).tags = [] := by
  have h := c8_empty_tags.1 ['a'] (by decide) (by decide)
  exact ⟨h.1, h.2.1 ' ' (by decide), h.2.2.2⟩

/-- C9 (confirmed, implicit): empty tag tokens from extra spaces.  With
consecutive or trailing spaces in the tag string, `from_string` stores
empty-string tokens at those positions (no filtering after the split),
and `to_cg3_string` re-emits them as the original extra spaces; in
general, any non-empty captured tag string splits with empties kept and
rejoins to the identical text. -/
theorem c9_empty_tag_tokens :
    from_string "\"<h>\"  A\n".toList =
      [{ word_form := ['h'], tags := [[], ['A']], readings := [] }] ∧
    to_cg3_string (from_string "\"<h>\"  A\n".toList) = "\"<h>\"  A\n".toList ∧
    from_string "\"<h>\" A \n".toList =
      [{ word_form := ['h'], tags := [['A'], []], readings := [] }] ∧
    to_cg3_string (from_string "\"<h>\" A \n".toList) = "\"<h>\" A \n".toList ∧
    (∀ s : List Char, s ≠ [] → tokenize (some s) = s.splitOn ' ' ∧
      [' '].intercalate (tokenize (some s)) = s) := by
  refine ⟨by decide, by decide, by decide, by decide, ?_⟩
  intro s hs
  have ht : tokenize (some s) = s.splitOn ' ' := by
    rw [tokenize, if_neg hs]
  exact ⟨ht, by rw [ht]; exact List.intercalate_splitOn s ' '⟩

/-- C10 (corrected): CRLF normalisation.  `from_string` splits on the
newline character and strips one trailing carriage return from each
NEWLINE-TERMINATED segment — but, contrary to the claim's "each line", a
final segment with no newline after it keeps a trailing `\r` (see the
counterexample).  Consequently: a `\r\n` pair acts as one line ending, a
CRLF-terminated input parses identically to the same input with LF
terminators, and a `\r` immediately preceding a `\n` never reaches any
line (hence no field ends with such a `\r`). -/
theorem c10_crlf :
    (∀ a b : List Char, noNl a = true →
      linesOf (a ++ '\n' :: b) = stripCR a :: linesOf b) ∧
    (∀ a b : List Char, noNl a = true →
      linesOf (a ++ '\r' :: '\n' :: b) = a :: linesOf b) ∧
    (∀ a : List Char, noNl a = true → linesOf a = if a = [] then [] else [a]) ∧
    (∀ ls : List (List Char), (∀ l ∈ ls, noNl l = true ∧ noCR l = true) →
      from_string ((ls.map (fun l => l ++ ['\r', '\n'])).flatten) =
        from_string ((ls.map (fun l => l ++ ['\n'])).flatten)) := by
  refine ⟨linesOf_append, linesOf_crlf, linesOf_no_nl, ?_⟩
  intro ls h
  rw [from_string, from_string, linesOf_flattenCRLF ls (fun l hl => (h l hl).1),
    linesOf_flatten ls
      (fun l hl => ⟨(h l hl).1, getLast?_ne_of_noCR l (h l hl).2⟩)]

/-- C10 counterexample: on input with no final newline and a trailing
carriage return, the code keeps the `\r` in the parsed tag, whereas the
claim's strip-from-each-line mechanism (`claimLinesOf`) would remove
it. -/
theorem c10_counterexample :
    from_string "\"<a>\" x\r".toList =
      [{ word_form := ['a'], tags := [['x', '\r']], readings := [] }] ∧
    List.foldl step [] (claimLinesOf "\"<a>\" x\r".toList) =
      [{ word_form := ['a'], tags := [['x']], readings := [] }] ∧
    from_string "\"<a>\" x\r".toList ≠
      List.foldl step [] (claimLinesOf "\"<a>\" x\r".toList) := by
  refine ⟨by decide, by decide, by decide⟩

/-- C10 witness: CRLF and LF versions of a two-line input parse alike. -/
theorem c10_witness :
    from_string (((["\"<a>\" T".toList, "    \"b\" U".toList]).map
      (fun l => l ++ ['\r', '\n'])).flatten) =
    from_string (((["\"<a>\" T".toList, "    \"b\" U".toList]).map
      (fun l => l ++ ['\n'])).flatten) :=
  c10_crlf.2.2.2 ["\"<a>\" T".toList, "    \"b\" U".toList] (by decide)

/-- C9 witness: a tag string starting with a space splits into an empty
token plus `A` and rejoins to the identical text. -/
theorem c9_witness :
    tokenize (some [' ', 'A']) = [' ', 'A'].splitOn ' ' ∧
    [' '].intercalate (tokenize (some [' ', 'A'])) = [' ', 'A'] :=
  c9_empty_tag_tokens.2.2.2.2 [' ', 'A'] (by decide)
